import Mathlib

/-!
Shallow embedding of the registration and composite-key index core of the
repository (`src/arkouda/index.py`, `src/arkouda/util.py`).  Arrays are
embedded as `List Int`, the server registry as the list of registered names,
and Python exceptions as an explicit error type.  Primitives of the
repository that are not under `src/` (`pdarray.register`, `unique`,
`concatenate`, `coargsort`, `in1d`, `GroupBy.unique_keys`) are modelled from
the spec, as marked on their doc comments.
-/

set_option maxHeartbeats 1000000

deriving instance DecidableEq for Except

namespace Ark

/-- Python exception outcomes relevant to the embedded fragment. -/
inductive PyErr where
  | typeError (msg : String)
  | valueError (msg : String)
  | attributeError
  | indexError
  | registrationError
deriving DecidableEq

/-- Modelled from the spec: the deduplication step (`arkouda.pdarraysetops.unique`
and `GroupBy(...).unique_keys`, neither under `src/`): "deduplicate via a
grouping-by-identity step that yields unique keys".  The order of the output
is unspecified by the spec; this model keeps the last occurrence of each key. -/
def uniqKeys {α : Type} [DecidableEq α] : List α → List α
  | [] => []
  | x :: xs => if x ∈ xs then uniqKeys xs else x :: uniqKeys xs

/-- Per-key counts of `GroupBy(values).count()`: the distinct keys paired with
their multiplicities. -/
def groupCounts {α : Type} [DecidableEq α] (v : List α) : List (α × Nat) :=
  (uniqKeys v).map fun k => (k, v.count k)

/-- Body of `Index.is_unique` (index.py:84-94): group by the values and test
that every group count equals one. -/
def isUniqueList {α : Type} [DecidableEq α] (v : List α) : Bool :=
  (groupCounts v).all fun kc => kc.2 == 1

/-- `generic_concat(items, ordered)` (util.py:44-56) dispatches same-typed
arrays to `pdarraysetops.concatenate` (not under `src/`), modelled from the
spec as concatenation; for `ordered=False` the order is unspecified and plain
concatenation is one admissible order. -/
def generic_concat (items : List (List Int)) (_ordered : Bool) : List Int :=
  items.flatten

/-- `get_callback` (util.py:23-31) resolves to `identity` for the plain
numeric arrays that populate this embedding. -/
def get_callback : List Int → List Int := id

/-- Modelled from the spec: the server registry observed through
`list_registry()`, held as the list of registered names.
`register_request(name)` (`pdarray.register`, not under `src/`) adds the name
and reports a naming conflict when the name is already bound. -/
def ak_register (reg : List String) (nm : String) : Except PyErr (List String) :=
  if nm ∈ reg then .error .registrationError else .ok (nm :: reg)

/-- State of `arkouda.index.Index`: the wrapped values and the `name`
attribute (`None` unless assigned). -/
structure Index where
  values : List Int
  name : Option String := none
deriving DecidableEq

/-- Rendering of `self.name` inside an f-string: Python prints `None` for an
unset optional name. -/
def pyFormatName : Option String → String
  | some s => s
  | none => "None"

/-- `Index.register(label)` (index.py:126-129): registers the wrapped values
under `f"{label}_key"`, then sets `self.name = label`. -/
def Index.register (i : Index) (label : String) (reg : List String) :
    Except PyErr (Index × List String) :=
  (ak_register reg (label ++ "_key")).map fun r => ({ i with name := some label }, r)

/-- `Index.is_registered` (index.py:131-145): one membership test of
`f"{self.name}_key"` against `list_registry()`, returning a plain boolean. -/
def Index.is_registered (i : Index) (reg : List String) : Bool :=
  reg.contains (pyFormatName i.name ++ "_key")

/-- `Index.is_unique` (index.py:84-94). -/
def Index.is_unique (i : Index) : Bool := isUniqueList i.values

/-- `Index._merge` (index.py:160-165): unordered concatenation, deduplication
via `unique`, re-wrap through the callback. -/
def Index.merge (a b : Index) : Index :=
  { values := get_callback (uniqKeys (generic_concat [a.values, b.values] false)) }

/-- `Index.concat` (index.py:192-196): ordered concatenation, duplicates
kept. -/
def Index.concat (a b : Index) : Index :=
  { values := generic_concat [a.values, b.values] true }

/-- Modelled from the spec: `in1d` over two arrays
(`arkouda.pdarraysetops.in1d`, not under `src/`): the per-position membership
mask of the first array's entries among the second's. -/
def in1d (v keys : List Int) : List Bool :=
  v.map fun x => decide (x ∈ keys)

/-- Argument shapes accepted by `Index.lookup`: an arkouda array or a single
scalar. -/
inductive LKey where
  | scalar (z : Int)
  | arr (v : List Int)

/-- `Index.lookup` (index.py:198-206): a non-pdarray key is lifted into a
singleton array by `array([key])` (always possible for the scalars of this
embedding), then `in1d(self.values, key)`. -/
def Index.lookup (i : Index) (k : LKey) : List Bool :=
  match k with
  | .scalar z => in1d i.values [z]
  | .arr ks => in1d i.values ks

/-- State of `arkouda.index.MultiIndex`: the wrapped levels (`self.values`).
`__init__` (index.py:481-496) assigns only `values`, `size` and `levels` —
never a `name` attribute. -/
structure MultiIndex where
  values : List (List Int)
deriving DecidableEq

/-- `self.size` as assigned by `MultiIndex.__init__`: the first level's
size. -/
def MultiIndex.size (m : MultiIndex) : Nat := (m.values.headD []).length

/-- `self.levels` as assigned by `MultiIndex.__init__`: the number of
levels. -/
def MultiIndex.levelsCount (m : MultiIndex) : Nat := m.values.length

/-- Row view of a level sequence: the list of positional tuples, the level-0
entry first in every tuple.  `GroupBy` on a list of arrays groups by exactly
these tuples. -/
def multiRows : List (List Int) → List (List Int)
  | [] => []
  | [c] => c.map fun x => [x]
  | c :: cs => List.zipWith (fun x r => x :: r) c (multiRows cs)

/-- Loop of `MultiIndex.register` (index.py:541-542): `enumerate(self.index)`
registering level `i` under `f"{label}_key_{i}"`. -/
def multiRegisterLoop (label : String) : Nat → List (List Int) → List String →
    Except PyErr (List String)
  | _, [], reg => .ok reg
  | i, _ :: ls, reg =>
      match ak_register reg (label ++ "_key_" ++ toString i) with
      | .error err => .error err
      | .ok r => multiRegisterLoop label (i + 1) ls r

/-- `MultiIndex.register(label)` (index.py:540-543): registers level `i` under
`f"{label}_key_{i}"` and returns the number of levels; `self.name` is never
assigned. -/
def MultiIndex.register (m : MultiIndex) (label : String) (reg : List String) :
    Except PyErr (List String × Nat) :=
  (multiRegisterLoop label 0 m.values reg).map fun r => (r, m.values.length)

/-- `MultiIndex.is_registered`: the method is inherited from `Index`
(index.py:131-145) and reads `self.name`, an attribute that neither
`MultiIndex.__init__` nor `MultiIndex.register` ever assigns, so the lookup
raises `AttributeError` whatever the registry holds. -/
def MultiIndex.is_registered (_m : MultiIndex) (_reg : List String) : Except PyErr Bool :=
  .error .attributeError

/-- `MultiIndex.is_unique`, inherited from `Index` (index.py:84-94):
`GroupBy(self.values)` on the list of levels groups by the row tuples. -/
def MultiIndex.is_unique (m : MultiIndex) : Bool := isUniqueList (multiRows m.values)

/-- Rows of `MultiIndex._merge(self, other)` (index.py:553-556): the levels
are concatenated pairwise unordered and `GroupBy(idx).unique_keys` yields the
distinct row tuples, which become the rows of the returned MultiIndex. -/
def MultiIndex.mergeRows (a b : MultiIndex) : List (List Int) :=
  uniqKeys (multiRows (List.zipWith (fun x y => generic_concat [x, y] false) a.values b.values))

/-- `MultiIndex.concat` (index.py:573-576): pairwise ordered concatenation of
the levels. -/
def MultiIndex.concat (a b : MultiIndex) : MultiIndex :=
  { values := List.zipWith (fun x y => generic_concat [x, y] true) a.values b.values }

/-- Fancy indexing `xs[idx]` of an array by an index array. -/
def gather {α : Type} (d : α) (xs : List α) (idx : List Nat) : List α :=
  idx.map fun j => xs.getD j d

/-- `arange(n-1, -1, -1)`: the indices `n-1, n-2, ..., 0`. -/
def revRange (n : Nat) : List Nat := (List.range n).reverse

/-- Lexicographic comparison of row tuples, first entry (level 0) most
significant. -/
def lexLe : List Int → List Int → Bool
  | [], _ => true
  | _ :: _, [] => false
  | a :: as, b :: bs => decide (a < b) || (decide (a = b) && lexLe as bs)

/-- Modelled from the spec: `coargsort` (arkouda.sorting, not under `src/`),
the "composite/co-sort primitive" that treats all levels jointly: it returns
a permutation of `0..size-1` arranging the row tuples lexicographically,
level 0 most significant. -/
def coargsort (cols : List (List Int)) : List Nat :=
  List.insertionSort
    (fun i j => lexLe ((multiRows cols).getD i []) ((multiRows cols).getD j []) = true)
    (List.range (multiRows cols).length)

/-- `MultiIndex.argsort` (index.py:567-571): `coargsort` over the levels;
for descending order the ascending permutation is indexed by
`arange(self.size-1, -1, -1)`. -/
def MultiIndex.argsort (m : MultiIndex) (ascending : Bool) : List Nat :=
  let i := coargsort m.values
  if ascending then i else gather 0 i (revRange m.size)

/-- `MultiIndex.__getitem__` (index.py:498-503) with an index-array key:
every level is indexed by the key. -/
def MultiIndex.getitem (m : MultiIndex) (key : List Nat) : MultiIndex :=
  { values := m.values.map fun c => gather 0 c key }

/-- Modelled from the spec: `in1d` over aligned lists of arrays
(`arkouda.pdarraysetops.in1d`, not under `src/`): the membership mask of the
row tuples of `cols` among the row tuples of `keys`; "mismatched arity fails
with a type error". -/
def multi_in1d (cols keys : List (List Int)) : Except PyErr (List Bool) :=
  if cols.length = keys.length then
    .ok ((multiRows cols).map fun r => decide (r ∈ multiRows keys))
  else .error (.typeError "in1d arity mismatch")

/-- Argument shapes accepted by `MultiIndex.lookup`: a scalar, a tuple/list
of per-level scalars, or a tuple/list of per-level arrays. -/
inductive MKey where
  | scalar (z : Int)
  | vals (ks : List Int)
  | arrs (ks : List (List Int))

/-- `MultiIndex.lookup` (index.py:578-584): a non-list, non-tuple key raises
`TypeError("MultiIndex lookup failure")`; reading `key[0]` of an empty
sequence raises `IndexError`; scalar entries are lifted to singleton arrays;
then `in1d(self.index, key)`. -/
def MultiIndex.lookup (m : MultiIndex) (k : MKey) : Except PyErr (List Bool) :=
  match k with
  | .scalar _ => .error (.typeError "MultiIndex lookup failure")
  | .vals [] => .error .indexError
  | .vals ks => multi_in1d m.values (ks.map fun z => [z])
  | .arrs [] => .error .indexError
  | .arrs ks => multi_in1d m.values ks

/-- An element of the Python sequence handed to `MultiIndex(...)` or
`Index.factory(...)`: an arkouda array or a plain scalar. -/
inductive PyElem where
  | arr (v : List Int)
  | scalar (z : Int)
deriving DecidableEq

/-- Attribute access `col.size` inside `MultiIndex.__init__`: plain scalars
carry no `size` attribute and raise `AttributeError`. -/
def PyElem.sizeAttr : PyElem → Except PyErr Nat
  | .arr v => .ok v.length
  | .scalar _ => .error .attributeError

/-- Tail of the `__init__` loop (index.py:486-495): each remaining column's
`size` must equal the first column's. -/
def multiInitRest (sz : Nat) : List PyElem → Except PyErr Unit
  | [] => .ok ()
  | e :: es =>
      match e.sizeAttr with
      | .error err => .error err
      | .ok n =>
          if n = sz then multiInitRest sz es
          else .error (.valueError "All columns in MultiIndex must have same length")

/-- `MultiIndex.__init__` (index.py:481-496) on a list/tuple argument:
`self.values` stores the given sequence, the loop compares every column's
`size` with the first column's, and `self.levels = len(self.values)`.  On
success every element is an array, returned here as the levels. -/
def multiIndexNew (elems : List PyElem) : Except PyErr MultiIndex :=
  match elems with
  | [] => .ok { values := [] }
  | e :: es =>
      match e.sizeAttr with
      | .error err => .error err
      | .ok sz =>
          match multiInitRest sz es with
          | .error err => .error err
          | .ok _ => .ok { values := elems.filterMap fun el =>
              match el with | .arr v => some v | .scalar _ => none }

/-- Argument shapes accepted by `Index.factory` (index.py:96-104). -/
inductive FactoryInput where
  | idx (i : Index)
  | mIdx (m : MultiIndex)
  | pyList (es : List PyElem)
  | pyTuple (es : List PyElem)
  | arr (v : List Int)
  | scalar (z : Int)

/-- Results of `Index.factory`. -/
inductive FactoryResult where
  | plain (i : Index)
  | multi (m : MultiIndex)
deriving DecidableEq

/-- `Index.factory` (index.py:96-104): Index instances (a MultiIndex is an
Index) pass through unchanged; arguments of exact type `list` or `tuple` go
to the `MultiIndex` constructor; everything else goes to the `Index`
constructor, whose `@typechecked` signature rejects plain scalars with a
`TypeError`. -/
def Index.factory : FactoryInput → Except PyErr FactoryResult
  | .idx i => .ok (.plain i)
  | .mIdx m => .ok (.multi m)
  | .pyList es => (multiIndexNew es).map .multi
  | .pyTuple es => (multiIndexNew es).map .multi
  | .arr v => .ok (.plain { values := v })
  | .scalar _ => .error (.typeError "Unable to create Index from type int")

/-- `sanitize` inside `register_all` (util.py:91-92):
`str(k).replace(" ", "_")` — every occurrence of the one-character pattern
`" "` becomes `"_"`, character by character. -/
def sanitize (k : List Char) : List Char :=
  k.map fun c => if c == ' ' then '_' else c

/-- The spec's wording of key sanitization, for comparison with `sanitize`:
"replaces whitespace with underscores", i.e. every whitespace character
becomes an underscore. -/
def sanitizeSpecWS (k : List Char) : List Char :=
  k.map fun c => if c.isWhitespace then '_' else c

/-- Registration pass of `register_all` on a mapping (util.py:100-101): each
value is registered under `f"{prefix}{sanitize(k)}"` and the names accumulate
in the registry.  The `overwrite` pre-pass only unregisters colliding names
beforehand; it does not change which names the pass below uses. -/
def register_all_names (pfx : List Char) (ks : List (List Char)) (reg : List (List Char)) :
    List (List Char) :=
  ks.foldl (fun r k => (pfx ++ sanitize k) :: r) reg

/-- Character class `[\w.]` of the `attach_all` pattern (util.py:116). -/
def isWordDot (c : Char) : Bool := c.isAlphanum || c == '_' || c == '.'

/-- Maximal run of decimal digits at the front of `s`, with the rest. -/
def takeDigits : List Char → List Char × List Char
  | [] => ([], [])
  | c :: cs =>
      if c.isDigit then
        let (d, r) := takeDigits cs
        (c :: d, r)
      else ([], c :: cs)

/-- Maximal run of `[\w.]` characters at the front of `s`, with the rest. -/
def takeWordDot : List Char → List Char × List Char
  | [] => ([], [])
  | c :: cs =>
      if isWordDot c then
        let (d, r) := takeWordDot cs
        (c :: d, r)
      else ([], c :: cs)

/-- Literal-prefix step of the pattern: strip `p` from the front of `s`. -/
def stripLit (p s : List Char) : Option (List Char) :=
  match p, s with
  | [], rest => some rest
  | _ :: _, [] => none
  | a :: ps, b :: ss => if a == b then stripLit ps ss else none

/-- Core of the `attach_all` pattern after the optional locale group:
`<prefix>[\w.]+` anchored at the front of `s`; returns the consumed text and
the rest. -/
def matchCore (p s : List Char) (pre : List Char) : Option (List Char × List Char) :=
  match stripLit p s with
  | none => none
  | some r =>
      let (w, rest) := takeWordDot r
      match w with
      | [] => none
      | _ :: _ => some (pre ++ p ++ w, rest)

/-- The full `attach_all` pattern `(?:\d+_)?<prefix>[\w.]+` (util.py:116)
anchored at the front of `s`: the greedy optional locale group `\d+_` is
tried first (a maximal digit run followed by `_`, exact because `_` is not a
digit), falling back to the bare pattern. -/
def matchPat (p s : List Char) : Option (List Char × List Char) :=
  match takeDigits s with
  | (d :: ds, '_' :: r₂) =>
      match matchCore p r₂ ((d :: ds) ++ ['_']) with
      | some m => some m
      | none => matchCore p s []
  | _ => matchCore p s []

/-- `re.findall` scan for the `attach_all` pattern: leftmost, non-overlapping
matches over the whole subject string; `fuel` bounds the recursion by the
subject's length. -/
def findallAux (p : List Char) : Nat → List Char → List (List Char)
  | 0, _ => []
  | _ + 1, [] => []
  | fuel + 1, c :: cs =>
      match matchPat p (c :: cs) with
      | some (m, rest) => m :: findallAux p fuel rest
      | none => findallAux p fuel cs

/-- `pat.findall(s)` for the `attach_all` pattern. -/
def findallPat (p s : List Char) : List (List Char) :=
  findallAux p s.length s

/-- `str(list_symbol_table())` (util.py:117): Python's string form of a list
of names, `['n1', 'n2', ...]`. -/
def pyListStrInner : List (List Char) → List Char
  | [] => []
  | [n] => ['\''] ++ n ++ ['\'']
  | n :: ns => ['\''] ++ n ++ ['\'', ',', ' '] ++ pyListStrInner ns

/-- `str(list_symbol_table())` including the surrounding brackets. -/
def pyListStr (names : List (List Char)) : List Char :=
  ['['] ++ pyListStrInner names ++ [']']

/-- `attach_all(prefix)` (util.py:115-118): find every pattern match in the
printed symbol table and map `k[len(prefix):]` to `attach(k)` (the handle is
identified here by the name it was attached to). -/
def attach_all (pfx : List Char) (symtab : List (List Char)) :
    List (List Char × List Char) :=
  (findallPat pfx (pyListStr symtab)).map fun k => (k.drop pfx.length, k)

/-- Uniform-size invariant of a level sequence: every level has length `n`. -/
abbrev uniformCols (cols : List (List Int)) (n : Nat) : Prop :=
  ∀ c ∈ cols, c.length = n

/-- Discriminator for the `TypeError` variant. -/
def PyErr.isTypeError : PyErr → Bool
  | .typeError _ => true
  | _ => false

/- ------------------------------------------------------------------ -/
/- Helper lemmas (shared; none of these is a claim theorem).           -/
/- ------------------------------------------------------------------ -/

theorem mem_uniqKeys {α : Type} [DecidableEq α] {a : α} {l : List α} :
    a ∈ uniqKeys l ↔ a ∈ l := by
  induction l with
  | nil => simp [uniqKeys]
  | cons x xs ih =>
      by_cases hx : x ∈ xs
      · simp only [uniqKeys, if_pos hx, List.mem_cons, ih]
        constructor
        · exact Or.inr
        · rintro (rfl | h)
          · exact hx
          · exact h
      · simp [uniqKeys, if_neg hx, List.mem_cons, ih]

theorem nodup_uniqKeys {α : Type} [DecidableEq α] (l : List α) : (uniqKeys l).Nodup := by
  induction l with
  | nil => simp [uniqKeys]
  | cons x xs ih =>
      by_cases hx : x ∈ xs
      · simpa [uniqKeys, if_pos hx] using ih
      · simp only [uniqKeys, if_neg hx]
        exact List.nodup_cons.mpr ⟨fun h => hx (mem_uniqKeys.mp h), ih⟩

theorem uniqKeys_append_of_subset {α : Type} [DecidableEq α] {l₁ l₂ : List α}
    (h : ∀ a ∈ l₁, a ∈ l₂) : uniqKeys (l₁ ++ l₂) = uniqKeys l₂ := by
  induction l₁ with
  | nil => simp
  | cons x xs ih =>
      have hx : x ∈ xs ++ l₂ := List.mem_append.mpr (Or.inr (h x (List.mem_cons_self x xs)))
      simp only [List.cons_append, uniqKeys, List.append_eq]
      rw [if_pos hx]
      exact ih fun a ha => h a (List.mem_cons_of_mem _ ha)

theorem uniqKeys_of_nodup {α : Type} [DecidableEq α] {l : List α} (h : l.Nodup) :
    uniqKeys l = l := by
  induction l with
  | nil => rfl
  | cons x xs ih =>
      rw [List.nodup_cons] at h
      simp [uniqKeys, if_neg h.1, ih h.2]

theorem uniqKeys_self_append {α : Type} [DecidableEq α] {l : List α} (h : l.Nodup) :
    uniqKeys (l ++ l) = l := by
  rw [uniqKeys_append_of_subset fun a ha => ha, uniqKeys_of_nodup h]

theorem nodup_of_isUniqueList {α : Type} [DecidableEq α] {l : List α}
    (h : isUniqueList l = true) : l.Nodup := by
  rw [List.nodup_iff_count_le_one]
  intro a
  by_cases ha : a ∈ l
  · have hmem : (a, l.count a) ∈ groupCounts l :=
      List.mem_map.mpr ⟨a, mem_uniqKeys.mpr ha, rfl⟩
    have hone := List.all_eq_true.mp h _ hmem
    simp only [beq_iff_eq] at hone
    exact le_of_eq hone
  · rw [List.count_eq_zero.mpr ha]
    exact Nat.zero_le 1

theorem multiRows_nil : multiRows [] = [] := rfl

theorem multiRows_singleton (c : List Int) : multiRows [c] = c.map fun x => [x] := rfl

theorem multiRows_cons_cons (c c' : List Int) (cs : List (List Int)) :
    multiRows (c :: c' :: cs) = List.zipWith (fun x r => x :: r) c (multiRows (c' :: cs)) := rfl

theorem multiRows_length {cols : List (List Int)} {n : Nat} (hne : cols ≠ [])
    (hu : uniformCols cols n) : (multiRows cols).length = n := by
  induction cols with
  | nil => cases hne rfl
  | cons c cs ih =>
      cases cs with
      | nil => simp [multiRows_singleton, hu c (by simp)]
      | cons c' cs' =>
          have hlen : (multiRows (c' :: cs')).length = n :=
            ih (by simp) fun x hx => hu x (List.mem_cons_of_mem _ hx)
          simp [multiRows_cons_cons, List.length_zipWith, hlen, hu c (by simp)]

theorem multiRows_zipWith_append {a : List (List Int)} {n m : Nat} :
    ∀ {b : List (List Int)}, a.length = b.length → uniformCols a n → uniformCols b m →
    multiRows (List.zipWith (fun x y => x ++ y) a b) = multiRows a ++ multiRows b := by
  induction a with
  | nil =>
      intro b hab _ _
      cases b with
      | nil => simp [multiRows_nil]
      | cons => simp at hab
  | cons c cs ih =>
      intro b hab ha hb
      cases b with
      | nil => simp at hab
      | cons d ds =>
          cases cs with
          | nil =>
              cases ds with
              | nil => simp [multiRows_singleton, List.map_append]
              | cons => simp at hab
          | cons c' cs' =>
              cases ds with
              | nil => simp at hab
              | cons d' ds' =>
                  have hrec : multiRows (List.zipWith (fun x y => x ++ y) (c' :: cs') (d' :: ds'))
                      = multiRows (c' :: cs') ++ multiRows (d' :: ds') :=
                    ih (by simpa using hab)
                      (fun x hx => ha x (List.mem_cons_of_mem _ hx))
                      (fun x hx => hb x (List.mem_cons_of_mem _ hx))
                  have hrows : (multiRows (c' :: cs')).length = n :=
                    multiRows_length (by simp) fun x hx => ha x (List.mem_cons_of_mem _ hx)
                  have hclen : c.length = (multiRows (c' :: cs')).length := by
                    rw [hrows, ha c (List.mem_cons_self _ _)]
                  have e2 : multiRows
                        (List.zipWith (fun x y => x ++ y) (c :: c' :: cs') (d :: d' :: ds'))
                      = List.zipWith (fun x r => x :: r) (c ++ d)
                          (multiRows (List.zipWith (fun x y => x ++ y) (c' :: cs') (d' :: ds'))) :=
                    rfl
                  rw [e2, hrec, List.zipWith_append _ _ _ _ _ hclen,
                    multiRows_cons_cons, multiRows_cons_cons]

theorem gather_map_range {α : Type} (d : α) (xs : List α) :
    gather d xs (List.range xs.length) = xs := by
  apply List.ext_getElem
  · simp [gather]
  · intro i h1 h2
    simp only [gather, List.getElem_map, List.getElem_range]
    exact List.getD_eq_getElem xs d h2

theorem gather_revRange {α : Type} (d : α) {xs : List α} {n : Nat} (h : xs.length = n) :
    gather d xs (revRange n) = xs.reverse := by
  subst h
  unfold revRange
  unfold gather
  rw [List.map_reverse]
  have h2 : List.map (fun j => xs.getD j d) (List.range xs.length) = xs :=
    gather_map_range d xs
  rw [h2]

theorem getD_map_of_lt {α β : Type} (f : α → β) (l : List α) (d : β) (e : α) {j : Nat}
    (h : j < l.length) : (l.map f).getD j d = f (l.getD j e) := by
  rw [List.getD_eq_getElem _ _ (by simpa using h), List.getD_eq_getElem _ _ h,
    List.getElem_map]

theorem zipWith_cons_getD {c : List Int} {rs : List (List Int)} {j : Nat}
    (hc : j < c.length) (hr : j < rs.length) :
    (List.zipWith (fun x r => x :: r) c rs).getD j []
      = c.getD j 0 :: rs.getD j [] := by
  have hz : j < (List.zipWith (fun x r => x :: r) c rs).length := by
    rw [List.length_zipWith]
    omega
  rw [List.getD_eq_getElem _ _ hz, List.getD_eq_getElem _ _ hc, List.getD_eq_getElem _ _ hr,
    List.getElem_zipWith]

theorem multiRows_getitem {cols : List (List Int)} {n : Nat} (hne : cols ≠ [])
    (hu : uniformCols cols n) {idx : List Nat} (hidx : ∀ j ∈ idx, j < n) :
    multiRows (cols.map fun c => gather 0 c idx) = gather [] (multiRows cols) idx := by
  induction cols with
  | nil => cases hne rfl
  | cons c cs ih =>
      cases cs with
      | nil =>
          simp only [List.map_cons, List.map_nil, multiRows_singleton, gather, List.map_map]
          apply List.map_congr_left
          intro j hj
          have hc : j < c.length := by rw [hu c (by simp)]; exact hidx j hj
          simp only [Function.comp]
          rw [getD_map_of_lt (fun x => [x]) c [] 0 hc]
      | cons c' cs' =>
          have hrec := ih (by simp) fun x hx => hu x (List.mem_cons_of_mem _ hx)
          have hrows : (multiRows (c' :: cs')).length = n :=
            multiRows_length (by simp) fun x hx => hu x (List.mem_cons_of_mem _ hx)
          have hc : c.length = n := hu c (List.mem_cons_self _ _)
          simp only [List.map_cons] at hrec ⊢
          rw [multiRows_cons_cons, multiRows_cons_cons, hrec]
          simp only [gather, List.zipWith_map, List.zipWith_same]
          apply List.map_congr_left
          intro j hj
          have h1 : j < c.length := by rw [hc]; exact hidx j hj
          have h2 : j < (multiRows (c' :: cs')).length := by rw [hrows]; exact hidx j hj
          rw [zipWith_cons_getD h1 h2]

theorem lexLe_total (x : List Int) : ∀ y : List Int, (lexLe x y || lexLe y x) = true := by
  induction x with
  | nil => intro y; simp [lexLe]
  | cons a as ih =>
      intro y
      cases y with
      | nil => simp [lexLe]
      | cons b bs =>
          rcases lt_trichotomy a b with h | h | h
          · simp [lexLe, h]
          · subst h
            simpa [lexLe] using ih bs
          · simp [lexLe, h, show ¬ a < b by omega, show ¬ a = b by omega]

theorem lexLe_trans : ∀ x y z : List Int,
    lexLe x y = true → lexLe y z = true → lexLe x z = true := by
  intro x
  induction x with
  | nil => intro y z _ _; simp [lexLe]
  | cons a as ih =>
      intro y z hxy hyz
      cases y with
      | nil => simp [lexLe] at hxy
      | cons b bs =>
          cases z with
          | nil => simp [lexLe] at hyz
          | cons c cs =>
              simp only [lexLe, Bool.or_eq_true, Bool.and_eq_true,
                decide_eq_true_eq] at hxy hyz ⊢
              rcases hxy with h1 | ⟨h1, h1'⟩
              · rcases hyz with h2 | ⟨h2, _⟩
                · exact Or.inl (by omega)
                · exact Or.inl (by omega)
              · rcases hyz with h2 | ⟨h2, h2'⟩
                · exact Or.inl (by omega)
                · exact Or.inr ⟨by omega, ih bs cs h1' h2'⟩

theorem foldl_register_names (pfx : List Char) :
    ∀ (ks : List (List Char)) (reg : List (List Char)),
    register_all_names pfx ks reg = (ks.map fun k => pfx ++ sanitize k).reverse ++ reg := by
  intro ks
  induction ks with
  | nil => intro reg; simp [register_all_names]
  | cons k ks ih =>
      intro reg
      show register_all_names pfx ks ((pfx ++ sanitize k) :: reg) = _
      rw [ih]
      simp

theorem multiInitRest_ok {sz : Nat} : ∀ {es : List PyElem}, multiInitRest sz es = .ok () →
    ∀ e ∈ es, ∃ v : List Int, e = .arr v ∧ v.length = sz := by
  intro es
  induction es with
  | nil => intro _ e he; cases he
  | cons e es ih =>
      intro h f hf
      cases e with
      | scalar z => simp [multiInitRest, PyElem.sizeAttr] at h
      | arr v =>
          rw [multiInitRest] at h
          simp only [PyElem.sizeAttr] at h
          by_cases hv : v.length = sz
          · rw [if_pos hv] at h
            rcases List.mem_cons.mp hf with rfl | hf'
            · exact ⟨v, rfl, hv⟩
            · exact ih h f hf'
          · rw [if_neg hv] at h
            cases h

theorem multiInitRest_uniform {sz : Nat} : ∀ {cols : List (List Int)},
    (∀ c ∈ cols, c.length = sz) → multiInitRest sz (cols.map .arr) = .ok () := by
  intro cols
  induction cols with
  | nil => intro _; rfl
  | cons c cs ih =>
      intro h
      rw [List.map_cons, multiInitRest]
      simp only [PyElem.sizeAttr]
      rw [if_pos (h c (List.mem_cons_self _ _))]
      exact ih fun x hx => h x (List.mem_cons_of_mem _ hx)

theorem multiInitRest_mismatch {sz : Nat} : ∀ {cols : List (List Int)},
    (∃ c ∈ cols, c.length ≠ sz) →
    multiInitRest sz (cols.map .arr)
      = .error (.valueError "All columns in MultiIndex must have same length") := by
  intro cols
  induction cols with
  | nil => rintro ⟨c, hc, _⟩; cases hc
  | cons c cs ih =>
      rintro ⟨x, hx, hxd⟩
      rw [List.map_cons, multiInitRest]
      simp only [PyElem.sizeAttr]
      by_cases hc : c.length = sz
      · rw [if_pos hc]
        rcases List.mem_cons.mp hx with rfl | hx'
        · cases hxd hc
        · exact ih ⟨x, hx', hxd⟩
      · rw [if_neg hc]

theorem filterMap_arr {sz : Nat} : ∀ {es : List PyElem},
    (∀ e ∈ es, ∃ v : List Int, e = .arr v ∧ v.length = sz) →
    ((es.filterMap fun el => match el with | .arr v => some v | .scalar _ => none).length
        = es.length
      ∧ ∀ c ∈ es.filterMap fun el => match el with | .arr v => some v | .scalar _ => none,
          c.length = sz) := by
  intro es
  induction es with
  | nil => intro _; exact ⟨rfl, fun c hc => absurd hc (List.not_mem_nil c)⟩
  | cons e es ih =>
      intro h
      obtain ⟨v, rfl, hv⟩ := h e (List.mem_cons_self _ _)
      have ih' := ih fun x hx => h x (List.mem_cons_of_mem _ hx)
      refine ⟨?_, ?_⟩
      · simp only [List.filterMap_cons]
        simpa using ih'.1
      · intro c hc
        simp only [List.filterMap_cons] at hc
        rcases List.mem_cons.mp hc with rfl | hc'
        · exact hv
        · exact ih'.2 c hc'

theorem filterMap_arr_map_arr : ∀ (cols : List (List Int)),
    ((cols.map PyElem.arr).filterMap fun el =>
        match el with | .arr v => some v | .scalar _ => none) = cols := by
  intro cols
  induction cols with
  | nil => rfl
  | cons c cs ih => simp [List.filterMap_cons, ih]

theorem multiIndexNew_uniform {cols : List (List Int)} {n : Nat} (hu : uniformCols cols n) :
    multiIndexNew (cols.map .arr) = .ok ⟨cols⟩ := by
  cases cols with
  | nil => rfl
  | cons c cs =>
      have h1 : multiInitRest c.length (cs.map .arr) = .ok () :=
        multiInitRest_uniform fun x hx => by
          rw [hu x (List.mem_cons_of_mem _ hx), hu c (List.mem_cons_self _ _)]
      rw [List.map_cons, multiIndexNew]
      simp only [PyElem.sizeAttr, h1]
      rw [← List.map_cons, filterMap_arr_map_arr]

theorem size_eq_of_uniform {m : MultiIndex} {n : Nat} (hne : m.values ≠ [])
    (hu : uniformCols m.values n) : m.size = n := by
  cases hv : m.values with
  | nil => cases hne hv
  | cons c cs =>
      show (m.values.headD []).length = n
      rw [hv]
      exact hu c (by rw [hv]; exact List.mem_cons_self _ _)

/- ------------------------------------------------------------------ -/
/- Claim theorems.                                                     -/
/- ------------------------------------------------------------------ -/

/-- C1: the claim requires a composite object's `is_registered` to query
every component name and to surface a distinguishable inconsistency error
when the components disagree.  The code's `MultiIndex` inherits
`Index.is_registered`, whose body reads the never-assigned `self.name`: the
outcome is the same `AttributeError` for every registry state, so the
component names are never consulted and component disagreement cannot be
surfaced.  Concretely, registering `[[0,1],[2,3]]` under `"lbl"` creates
`lbl_key_0` and `lbl_key_1`, yet after removing `lbl_key_0` out of band the
call's outcome is unchanged. -/
theorem c1_is_registered_ignores_components :
    (∀ (m : MultiIndex) (reg₁ reg₂ : List String),
        m.is_registered reg₁ = m.is_registered reg₂)
    ∧ (∀ (m : MultiIndex) (reg : List String),
        m.is_registered reg = .error .attributeError)
    ∧ MultiIndex.register ⟨[[0, 1], [2, 3]]⟩ "lbl" []
        = .ok (["lbl_key_1", "lbl_key_0"], 2)
    ∧ MultiIndex.is_registered ⟨[[0, 1], [2, 3]]⟩ ["lbl_key_1", "lbl_key_0"]
        = MultiIndex.is_registered ⟨[[0, 1], [2, 3]]⟩ ["lbl_key_1"] :=
  ⟨fun _ _ _ => rfl, fun _ _ => rfl, by decide, rfl⟩

/-- C2: after `register(h, n)` an `Index` immediately reports registered
(whenever the derived name `n ++ "_key"` is still free).  A `MultiIndex`
does not: its `register` creates the component names `<n>_key_<i>` while the
inherited `is_registered` reads the unset `self.name` and raises
`AttributeError` — and even with the name repaired it would test `<n>_key`,
a name `register` never created.  Neither class defines `unregister`. -/
theorem c2_register_then_is_registered :
    (∀ (v : List Int) (nm : Option String) (label : String) (reg : List String),
        (label ++ "_key") ∉ reg →
        Index.register ⟨v, nm⟩ label reg
            = .ok (⟨v, some label⟩, (label ++ "_key") :: reg)
          ∧ Index.is_registered ⟨v, some label⟩ ((label ++ "_key") :: reg) = true)
    ∧ MultiIndex.register ⟨[[0, 1], [2, 3]]⟩ "lbl" []
        = .ok (["lbl_key_1", "lbl_key_0"], 2)
    ∧ MultiIndex.is_registered ⟨[[0, 1], [2, 3]]⟩ ["lbl_key_1", "lbl_key_0"]
        = .error .attributeError
    ∧ Index.is_registered ⟨[0, 1], some "lbl"⟩ ["lbl_key_1", "lbl_key_0"] = false := by
  refine ⟨?_, by decide, rfl, by decide⟩
  intro v nm label reg h
  constructor
  · simp [Index.register, ak_register, if_neg h, Except.map]
  · simp [Index.is_registered, pyFormatName, List.contains_cons]

/-- C2 witness: concrete run of the `Index` half at name `"x"` over the empty
registry. -/
theorem c2_register_then_is_registered_witness :
    ("x" ++ "_key") ∉ ([] : List String)
    ∧ (Index.register ⟨[5], none⟩ "x" []
          = .ok (⟨[5], some "x"⟩, ("x" ++ "_key") :: [])
       ∧ Index.is_registered ⟨[5], some "x"⟩ (("x" ++ "_key") :: []) = true) :=
  ⟨by decide, c2_register_then_is_registered.1 [5] none "x" [] (by decide)⟩

/-- C8 counterexample: the key `"a\tb"` contains a whitespace character (TAB)
that `sanitize` leaves untouched, so the element is registered under
`"pfx" ++ "a\tb"` and not, as the claim's whitespace-wide sanitization
demands, under `"pfx" ++ "a_b"`. -/
theorem c8_sanitize_counterexample :
    register_all_names "pfx".toList ["a\tb".toList] []
        = [("pfx".toList ++ "a\tb".toList)]
    ∧ sanitizeSpecWS "a\tb".toList = "a_b".toList
    ∧ ("pfx".toList ++ "a\tb".toList) ≠ ("pfx".toList ++ "a_b".toList) := by
  decide

/-- C8 amended: every element of a mapping given to `register_all` is
registered under the prefix followed by the sanitized key, where sanitization
replaces every SPACE character (U+0020) — not every whitespace character —
with an underscore and leaves all other characters unchanged. -/
theorem c8_register_all_sanitize (pfx : List Char) (ks : List (List Char))
    (reg : List (List Char)) :
    register_all_names pfx ks reg = (ks.map fun k => pfx ++ sanitize k).reverse ++ reg
    ∧ (∀ k ∈ ks, (pfx ++ sanitize k) ∈ register_all_names pfx ks reg)
    ∧ (∀ k : List Char, (sanitize k).length = k.length)
    ∧ (∀ (k : List Char) (i : Nat), i < k.length →
        (sanitize k).getD i ' '
          = if k.getD i ' ' = ' ' then '_' else k.getD i ' ') := by
  refine ⟨foldl_register_names pfx ks reg, ?_, ?_, ?_⟩
  · intro k hk
    rw [foldl_register_names pfx ks reg]
    exact List.mem_append.mpr (Or.inl (List.mem_reverse.mpr
      (List.mem_map.mpr ⟨k, hk, rfl⟩)))
  · intro k
    simp [sanitize]
  · intro k i hi
    simp only [sanitize]
    rw [getD_map_of_lt (fun c => if c == ' ' then '_' else c) k ' ' ' ' hi]
    by_cases hc : k.getD i ' ' = ' '
    · simp [hc]
    · simp [hc]

/-- C8 witness: the space in key `"a b"` is replaced, and the name
`"p" ++ sanitize "a b"` is among the registered names. -/
theorem c8_register_all_sanitize_witness :
    "a b".toList ∈ ["a b".toList]
    ∧ ("p".toList ++ sanitize "a b".toList)
        ∈ register_all_names "p".toList ["a b".toList] [] :=
  ⟨by decide,
   (c8_register_all_sanitize "p".toList ["a b".toList] []).2.1 "a b".toList (by decide)⟩

/-- C9 counterexample: with prefix `"abc"` and a symbol table holding
`"1_abcXY"`, the pattern matches the whole name including the numeric locale
part, and the mapping key is `k[len(prefix):] = "bcXY"` — not the suffix
`"XY"` that follows the prefix inside the name. -/
theorem c9_attach_all_counterexample :
    attach_all "abc".toList ["1_abcXY".toList]
        = [("bcXY".toList, "1_abcXY".toList)]
    ∧ "1_abcXY".toList = ("1_".toList ++ "abc".toList ++ "XY".toList)
    ∧ "bcXY".toList ≠ "XY".toList := by decide

/-- C9 amended: `attach_all` matches registry names of the form
`(optional numeric locale prefix)_<prefix><suffix>`, and returns a mapping
whose values are the handles attached to the matched names and whose keys are
the matched names with their first `len(prefix)` characters removed; the key
equals the suffix after the prefix exactly when the match carries no locale
part (a matched locale part stays inside the key). -/
theorem c9_attach_all_keys (pfx : List Char) (symtab : List (List Char)) :
    ∀ kv ∈ attach_all pfx symtab,
      kv.2 ∈ findallPat pfx (pyListStr symtab)
      ∧ kv.1 = kv.2.drop pfx.length
      ∧ ∀ s : List Char, kv.2 = pfx ++ s → kv.1 = s := by
  intro kv hkv
  obtain ⟨k, hk, rfl⟩ := List.mem_map.mp hkv
  refine ⟨hk, rfl, ?_⟩
  rintro s rfl
  exact List.drop_left pfx s

/-- C9 witness: for prefix `"abc"` and symbol table `["abcZ"]` the single
entry carries key `"Z"`, the suffix after the prefix. -/
theorem c9_attach_all_keys_witness :
    "Z".toList = "abcZ".toList.drop "abc".toList.length
    ∧ "Z".toList = "Z".toList :=
  ⟨(c9_attach_all_keys "abc".toList ["abcZ".toList] ("Z".toList, "abcZ".toList)
      (by decide)).2.1,
   (c9_attach_all_keys "abc".toList ["abcZ".toList] ("Z".toList, "abcZ".toList)
      (by decide)).2.2 "Z".toList (by decide)⟩

/-- C10 counterexample: `factory([1, 2])` on a plain Python list of scalars
constructs neither a MultiIndex nor an Index: the `MultiIndex` constructor
reads `col.size` of the scalar element and raises `AttributeError`. -/
theorem c10_factory_counterexample :
    Index.factory (.pyList [.scalar 1, .scalar 2]) = .error .attributeError := by decide

/-- C10 amended: `Index.factory` returns its argument unchanged when it is
already an `Index` (including a `MultiIndex`); an argument of exact type
`list`/`tuple` is dispatched to the `MultiIndex` constructor, each element
one level — succeeding exactly for array elements of equal size and raising
an error for plain scalars, never falling back to a single Index over the
values; any other supported input builds a single-level `Index`, and
unsupported scalars raise `TypeError`. -/
theorem c10_factory_dispatch :
    (∀ i : Index, Index.factory (.idx i) = .ok (.plain i))
    ∧ (∀ m : MultiIndex, Index.factory (.mIdx m) = .ok (.multi m))
    ∧ (∀ (es : List PyElem) (r : FactoryResult),
        Index.factory (.pyList es) = .ok r → ∃ mm, r = .multi mm)
    ∧ (∀ (es : List PyElem) (r : FactoryResult),
        Index.factory (.pyTuple es) = .ok r → ∃ mm, r = .multi mm)
    ∧ (∀ (cols : List (List Int)) (n : Nat), uniformCols cols n →
        Index.factory (.pyList (cols.map .arr)) = .ok (.multi ⟨cols⟩)
        ∧ Index.factory (.pyTuple (cols.map .arr)) = .ok (.multi ⟨cols⟩))
    ∧ (∀ v : List Int, Index.factory (.arr v) = .ok (.plain ⟨v, none⟩))
    ∧ (∀ z : Int, Index.factory (.scalar z)
        = .error (.typeError "Unable to create Index from type int")) := by
  refine ⟨fun _ => rfl, fun _ => rfl, ?_, ?_, ?_, fun _ => rfl, fun _ => rfl⟩
  · intro es r h
    simp only [Index.factory] at h
    cases hm : multiIndexNew es with
    | error e => rw [hm] at h; cases h
    | ok mm =>
        rw [hm] at h
        simp only [Except.map] at h
        cases h
        exact ⟨mm, rfl⟩
  · intro es r h
    simp only [Index.factory] at h
    cases hm : multiIndexNew es with
    | error e => rw [hm] at h; cases h
    | ok mm =>
        rw [hm] at h
        simp only [Except.map] at h
        cases h
        exact ⟨mm, rfl⟩
  · intro cols n hu
    constructor
    · simp only [Index.factory, multiIndexNew_uniform hu, Except.map]
    · simp only [Index.factory, multiIndexNew_uniform hu, Except.map]

/-- C3: merging an already-deduplicated index with itself yields the same set
of elements and the same size — for an `Index` over the values, for a
`MultiIndex` over the row tuples (under the uniform-size invariant with at
least one level); the output ordering is left unspecified. -/
theorem c3_merge_idempotent_on_unique :
    (∀ u : Index, u.is_unique = true →
        (u.merge u).values.length = u.values.length
        ∧ ∀ x : Int, x ∈ (u.merge u).values ↔ x ∈ u.values)
    ∧ (∀ (m : MultiIndex) (n : Nat), m.values ≠ [] → uniformCols m.values n →
        m.is_unique = true →
        (m.mergeRows m).length = m.size
        ∧ ∀ r : List Int, r ∈ m.mergeRows m ↔ r ∈ multiRows m.values) := by
  constructor
  · intro u hu
    have hnd : u.values.Nodup := nodup_of_isUniqueList hu
    have hv : (u.merge u).values = u.values := by
      have h1 : generic_concat [u.values, u.values] false = u.values ++ u.values := by
        simp [generic_concat]
      show get_callback (uniqKeys (generic_concat [u.values, u.values] false)) = u.values
      rw [h1]
      show uniqKeys (u.values ++ u.values) = u.values
      exact uniqKeys_self_append hnd
    rw [hv]
    exact ⟨rfl, fun _ => Iff.rfl⟩
  · intro m n hne hu hmu
    have hnd : (multiRows m.values).Nodup := nodup_of_isUniqueList hmu
    have hfun : (fun x y : List Int => generic_concat [x, y] false)
        = fun x y : List Int => x ++ y := by
      funext x y
      simp [generic_concat]
    have hm : m.mergeRows m = multiRows m.values := by
      show uniqKeys (multiRows (List.zipWith
          (fun x y => generic_concat [x, y] false) m.values m.values)) = _
      rw [hfun, multiRows_zipWith_append rfl hu hu]
      exact uniqKeys_self_append hnd
    rw [hm, multiRows_length hne hu, size_eq_of_uniform hne hu]
    exact ⟨rfl, fun _ => Iff.rfl⟩

/-- C3 witness: concrete runs of both halves on unique inputs. -/
theorem c3_merge_idempotent_on_unique_witness :
    (Index.merge ⟨[1, 2, 3], none⟩ ⟨[1, 2, 3], none⟩).values.length
        = (Index.mk [1, 2, 3] none).values.length
    ∧ (MultiIndex.mergeRows ⟨[[0, 1], [2, 3]]⟩ ⟨[[0, 1], [2, 3]]⟩).length
        = MultiIndex.size ⟨[[0, 1], [2, 3]]⟩ :=
  ⟨(c3_merge_idempotent_on_unique.1 ⟨[1, 2, 3], none⟩ (by decide)).1,
   (c3_merge_idempotent_on_unique.2 ⟨[[0, 1], [2, 3]]⟩ 2 (by decide) (by decide)
      (by decide)).1⟩

/-- C4: indexing a MultiIndex by the permutation from
`argsort(ascending=True)` yields its row tuples in lexicographically sorted
order, level 0 most significant, and `argsort(ascending=False)` is exactly
the reverse of the ascending permutation (under the uniform-size invariant
with at least one level). -/
theorem c4_argsort_lex_and_reverse (m : MultiIndex) (n : Nat)
    (hne : m.values ≠ []) (hu : uniformCols m.values n) :
    List.Pairwise (fun r s => lexLe r s = true)
        (multiRows (m.getitem (m.argsort true)).values)
    ∧ m.argsort false = (m.argsort true).reverse := by
  have hrows : (multiRows m.values).length = n := multiRows_length hne hu
  have hlen : (coargsort m.values).length = n := by
    rw [coargsort, List.length_insertionSort, List.length_range, hrows]
  constructor
  · have hidx : ∀ j ∈ coargsort m.values, j < n := by
      intro j hj
      rw [coargsort] at hj
      have hjm := (List.perm_insertionSort _
        (List.range (multiRows m.values).length)).mem_iff.mp hj
      rw [List.mem_range, hrows] at hjm
      exact hjm
    have hgit : multiRows (m.getitem (coargsort m.values)).values
        = gather [] (multiRows m.values) (coargsort m.values) := by
      show multiRows (m.values.map fun c => gather 0 c (coargsort m.values)) = _
      exact multiRows_getitem hne hu hidx
    show List.Pairwise (fun r s => lexLe r s = true)
        (multiRows (m.getitem (coargsort m.values)).values)
    rw [hgit]
    haveI hto : IsTotal Nat (fun i j =>
        lexLe ((multiRows m.values).getD i []) ((multiRows m.values).getD j []) = true) := by
      constructor
      intro i j
      have ht := lexLe_total ((multiRows m.values).getD i []) ((multiRows m.values).getD j [])
      have ht' : lexLe ((multiRows m.values).getD i []) ((multiRows m.values).getD j []) = true
          ∨ lexLe ((multiRows m.values).getD j []) ((multiRows m.values).getD i []) = true := by
        simpa using ht
      exact ht'
    haveI htr : IsTrans Nat (fun i j =>
        lexLe ((multiRows m.values).getD i []) ((multiRows m.values).getD j []) = true) :=
      ⟨fun _ _ _ hab hbc => lexLe_trans _ _ _ hab hbc⟩
    have hsorted : List.Pairwise (fun i j =>
        lexLe ((multiRows m.values).getD i []) ((multiRows m.values).getD j []) = true)
        (coargsort m.values) := by
      rw [coargsort]
      exact List.sorted_insertionSort _ (List.range (multiRows m.values).length)
    show List.Pairwise (fun r s => lexLe r s = true)
        ((coargsort m.values).map fun j => (multiRows m.values).getD j [])
    exact List.Pairwise.map _ (fun _ _ hab => hab) hsorted
  · show gather 0 (coargsort m.values) (revRange m.size) = (coargsort m.values).reverse
    rw [size_eq_of_uniform hne hu]
    exact gather_revRange 0 hlen

/-- C4 witness: the levels `[[2,1,1],[0,5,4]]` (rows `(2,0),(1,5),(1,4)`)
sort ascending to rows `(1,4),(1,5),(2,0)` and the descending permutation is
the exact reverse. -/
theorem c4_argsort_lex_and_reverse_witness :
    (MultiIndex.values ⟨[[2, 1, 1], [0, 5, 4]]⟩ ≠ [])
    ∧ (List.Pairwise (fun r s => lexLe r s = true)
        (multiRows ((MultiIndex.getitem ⟨[[2, 1, 1], [0, 5, 4]]⟩
            (MultiIndex.argsort ⟨[[2, 1, 1], [0, 5, 4]]⟩ true)).values))
       ∧ MultiIndex.argsort ⟨[[2, 1, 1], [0, 5, 4]]⟩ false
          = (MultiIndex.argsort ⟨[[2, 1, 1], [0, 5, 4]]⟩ true).reverse) :=
  ⟨by decide,
   c4_argsort_lex_and_reverse ⟨[[2, 1, 1], [0, 5, 4]]⟩ 3 (by decide) (by decide)⟩

/-- C5: `concat` retains duplicates and preserves relative order — the result
is exactly the elements of `a` followed by the elements of `b` (values for an
`Index`, row tuples for a `MultiIndex` under the uniform-size invariant) —
whereas `_merge` of the spec's example `[1,2,2]` and `[2,3]` deduplicates to
the three-element set `{1,2,3}`. -/
theorem c5_concat_keeps_duplicates :
    (∀ a b : Index, (a.concat b).values = a.values ++ b.values)
    ∧ (∀ (a b : MultiIndex) (n k : Nat), a.values.length = b.values.length →
        uniformCols a.values n → uniformCols b.values k →
        multiRows (a.concat b).values = multiRows a.values ++ multiRows b.values)
    ∧ (Index.concat ⟨[1, 2, 2], none⟩ ⟨[2, 3], none⟩).values = [1, 2, 2, 2, 3]
    ∧ (Index.merge ⟨[1, 2, 2], none⟩ ⟨[2, 3], none⟩).values.length = 3
    ∧ ∀ x : Int, x ∈ (Index.merge ⟨[1, 2, 2], none⟩ ⟨[2, 3], none⟩).values
        ↔ (x = 1 ∨ x = 2 ∨ x = 3) := by
  refine ⟨?_, ?_, by decide, by decide, ?_⟩
  · intro a b
    simp [Index.concat, generic_concat]
  · intro a b n k hlen ha hb
    show multiRows (List.zipWith
        (fun x y => generic_concat [x, y] true) a.values b.values) = _
    have hfun : (fun x y : List Int => generic_concat [x, y] true)
        = fun x y : List Int => x ++ y := by
      funext x y
      simp [generic_concat]
    rw [hfun]
    exact multiRows_zipWith_append hlen ha hb
  · intro x
    have hm : (Index.merge ⟨[1, 2, 2], none⟩ ⟨[2, 3], none⟩).values = [1, 2, 3] := by
      decide
    rw [hm]
    simp

/-- C5 witness: a concrete MultiIndex concatenation keeping both copies of a
row. -/
theorem c5_concat_keeps_duplicates_witness :
    multiRows (MultiIndex.concat ⟨[[1, 2]]⟩ ⟨[[2]]⟩).values
      = multiRows [[1, 2]] ++ multiRows [[2]] :=
  c5_concat_keeps_duplicates.2.1 ⟨[[1, 2]]⟩ ⟨[[2]]⟩ 2 1 rfl (by decide) (by decide)

/-- C6 counterexample: for the empty key `()` — arity 0 against two levels —
`MultiIndex.lookup` raises `IndexError` from evaluating `key[0]`, not the
type error the claim promises for every arity mismatch. -/
theorem c6_lookup_counterexample :
    MultiIndex.lookup ⟨[[0, 1, 2], [2, 1, 0]]⟩ (.vals []) = .error .indexError
    ∧ PyErr.isTypeError .indexError = false := by decide

/-- C6 amended: `Index.lookup` lifts a scalar key into a singleton array and
returns the membership mask; `MultiIndex.lookup` requires a tuple/list key (a
scalar raises a `TypeError`), and a nonempty key of mismatched arity is
rejected with a type error by the joint `in1d` primitive, while the empty key
instead raises `IndexError` when the code reads `key[0]`. -/
theorem c6_lookup_contract :
    (∀ (i : Index) (z : Int),
        i.lookup (.scalar z) = in1d i.values [z]
        ∧ i.lookup (.scalar z) = i.values.map fun v => decide (v = z))
    ∧ (∀ (m : MultiIndex) (z : Int),
        m.lookup (.scalar z) = .error (.typeError "MultiIndex lookup failure"))
    ∧ (∀ (m : MultiIndex) (ks : List Int), ks ≠ [] → ks.length ≠ m.values.length →
        m.lookup (.vals ks) = .error (.typeError "in1d arity mismatch"))
    ∧ (∀ (m : MultiIndex) (ks : List (List Int)), ks ≠ [] → ks.length ≠ m.values.length →
        m.lookup (.arrs ks) = .error (.typeError "in1d arity mismatch"))
    ∧ (∀ m : MultiIndex, m.lookup (.vals []) = .error .indexError
        ∧ m.lookup (.arrs []) = .error .indexError) := by
  refine ⟨?_, fun _ _ => rfl, ?_, ?_, fun _ => ⟨rfl, rfl⟩⟩
  · intro i z
    refine ⟨rfl, ?_⟩
    show in1d i.values [z] = _
    simp [in1d]
  · intro m ks hne hlen
    cases ks with
    | nil => cases hne rfl
    | cons k ks' =>
        have hcond : ¬ (m.values.length = ((k :: ks').map fun z => [z]).length) := by
          rw [List.length_map]
          exact fun h => hlen h.symm
        simp only [MultiIndex.lookup, multi_in1d, if_neg hcond]
  · intro m ks hne hlen
    cases ks with
    | nil => cases hne rfl
    | cons k ks' =>
        have hcond : ¬ (m.values.length = (k :: ks').length) :=
          fun h => hlen h.symm
        simp only [MultiIndex.lookup, multi_in1d, if_neg hcond]

/-- C6 witness: the spec's two lookup examples evaluate to the expected
masks, and a two-entry key against a one-level MultiIndex is a type error. -/
theorem c6_lookup_contract_witness :
    ([1, 1] : List Int) ≠ []
    ∧ ([1, 1] : List Int).length ≠ (MultiIndex.values ⟨[[0, 1, 2]]⟩).length
    ∧ MultiIndex.lookup ⟨[[0, 1, 2]]⟩ (.vals [1, 1])
        = .error (.typeError "in1d arity mismatch")
    ∧ Index.lookup ⟨[10, 20, 30], none⟩ (.scalar 20) = [false, true, false]
    ∧ MultiIndex.lookup ⟨[[0, 1, 2], [2, 1, 0]]⟩ (.vals [1, 1])
        = .ok [false, true, false] :=
  ⟨by decide, by decide,
   c6_lookup_contract.2.2.1 ⟨[[0, 1, 2]]⟩ [1, 1] (by decide) (by decide),
   by decide, by decide⟩

/-- C7: every successfully constructed MultiIndex has levels of identical
size (each equal to `self.size`, the first level's size) and its `levels`
attribute equals the number of elements of the wrapped sequence; construction
from array levels of differing sizes raises the `ValueError`. -/
theorem c7_multiindex_invariant :
    (∀ (elems : List PyElem) (m : MultiIndex), multiIndexNew elems = .ok m →
        m.levelsCount = elems.length
        ∧ ∀ c ∈ m.values, c.length = m.size)
    ∧ (∀ cols : List (List Int), (∃ c ∈ cols, ∃ d ∈ cols, c.length ≠ d.length) →
        multiIndexNew (cols.map .arr)
          = .error (.valueError "All columns in MultiIndex must have same length")) := by
  constructor
  · intro elems m h
    cases elems with
    | nil =>
        rw [multiIndexNew] at h
        cases h
        exact ⟨rfl, fun c hc => absurd hc (List.not_mem_nil c)⟩
    | cons e es =>
        cases e with
        | scalar z =>
            rw [multiIndexNew] at h
            simp [PyElem.sizeAttr] at h
        | arr v =>
            rw [multiIndexNew] at h
            simp only [PyElem.sizeAttr] at h
            cases hrest : multiInitRest v.length es with
            | error err => rw [hrest] at h; cases h
            | ok u =>
                cases u
                rw [hrest] at h
                cases h
                have hall : ∀ x ∈ PyElem.arr v :: es,
                    ∃ w : List Int, x = .arr w ∧ w.length = v.length := by
                  intro x hx
                  rcases List.mem_cons.mp hx with rfl | hx'
                  · exact ⟨v, rfl, rfl⟩
                  · exact multiInitRest_ok hrest x hx'
                have hfm := filterMap_arr hall
                refine ⟨hfm.1, ?_⟩
                intro c hc
                have hsz : MultiIndex.size ⟨(PyElem.arr v :: es).filterMap fun el =>
                    match el with | .arr w => some w | .scalar _ => none⟩ = v.length := by
                  simp [MultiIndex.size, List.filterMap_cons]
                rw [hsz]
                exact hfm.2 c hc
  · intro cols hex
    obtain ⟨c, hc, d, hd, hcd⟩ := hex
    cases cols with
    | nil => cases hc
    | cons c₀ rest =>
        have hne : ∃ x ∈ rest, x.length ≠ c₀.length := by
          by_contra hall
          push_neg at hall
          have hlen : ∀ x ∈ c₀ :: rest, x.length = c₀.length := by
            intro x hx
            rcases List.mem_cons.mp hx with rfl | hx'
            · rfl
            · exact hall x hx'
          exact hcd ((hlen c hc).trans (hlen d hd).symm)
        rw [List.map_cons, multiIndexNew]
        simp only [PyElem.sizeAttr]
        rw [multiInitRest_mismatch hne]

/-- C7 witness: two equal-size levels construct successfully with the stated
attributes; levels `[1,2]` and `[1]` are rejected. -/
theorem c7_multiindex_invariant_witness :
    MultiIndex.levelsCount ⟨[[1, 2], [3, 4]]⟩
        = [PyElem.arr [1, 2], PyElem.arr [3, 4]].length
    ∧ multiIndexNew ([[1, 2], [1]].map .arr)
        = .error (.valueError "All columns in MultiIndex must have same length") :=
  ⟨(c7_multiindex_invariant.1 [.arr [1, 2], .arr [3, 4]] ⟨[[1, 2], [3, 4]]⟩ (by decide)).1,
   c7_multiindex_invariant.2 [[1, 2], [1]] (by decide)⟩

/-- C10 witness: a list of two equal-sized array levels produces exactly the
MultiIndex over those levels. -/
theorem c10_factory_dispatch_witness :
    uniformCols [[1, 2], [3, 4]] 2
    ∧ (Index.factory (.pyList ([[1, 2], [3, 4]].map .arr))
          = .ok (.multi ⟨[[1, 2], [3, 4]]⟩)
       ∧ Index.factory (.pyTuple ([[1, 2], [3, 4]].map .arr))
          = .ok (.multi ⟨[[1, 2], [3, 4]]⟩)) :=
  ⟨by decide, c10_factory_dispatch.2.2.2.2.1 [[1, 2], [3, 4]] 2 (by decide)⟩

end Ark

